import Mathlib

/-!
A verification development for a markdown architecture-documentation
generator written in Rust. The sources embedded here are
src/front_matter.rs (front-matter extraction and first-paragraph
fallback), src/component.rs (component parsing), src/config.rs (the
configuration record and its loader) and src/generator.rs (document
assembly). Rust strings are modelled as Lean strings; byte indices into
UTF-8 text are modelled by summing per-character UTF-8 sizes; the
nondeterministic iteration order of the generator's HashMap over category
keys is an explicit parameter; filesystem reads and the external
YAML/TOML parsers are parameters of the functions that call them.
-/

/-! ## Character and string primitives -/

/-- Rust char::is_whitespace: the Unicode White_Space property, listed
exhaustively by code point. -/
def is_rust_whitespace (c : Char) : Bool :=
  (0x9 ≤ c.toNat && c.toNat ≤ 0xD) || c.toNat = 0x20 || c.toNat = 0x85 ||
  c.toNat = 0xA0 || c.toNat = 0x1680 ||
  (0x2000 ≤ c.toNat && c.toNat ≤ 0x200A) ||
  c.toNat = 0x2028 || c.toNat = 0x2029 || c.toNat = 0x202F ||
  c.toNat = 0x205F || c.toNat = 0x3000

/-- The number of bytes of the UTF-8 encoding of a scalar value. -/
def utf8_size (c : Char) : Nat :=
  if c.toNat < 0x80 then 1
  else if c.toNat < 0x800 then 2
  else if c.toNat < 0x10000 then 3
  else 4

/-- The UTF-8 byte length of a character sequence (Rust str::len). -/
def utf8_len (cs : List Char) : Nat :=
  (cs.map utf8_size).sum

/-- Rust str::trim on a character sequence: remove leading and trailing
whitespace. -/
def trim_chars (cs : List Char) : List Char :=
  ((cs.dropWhile is_rust_whitespace).reverse.dropWhile is_rust_whitespace).reverse

/-- Rust str::trim. -/
def rust_trim (s : String) : String :=
  String.mk (trim_chars s.data)

/-- Rust str::trim_end: remove trailing whitespace only. -/
def rust_trim_end (s : String) : String :=
  String.mk ((s.data.reverse.dropWhile is_rust_whitespace).reverse)

/-- Rust str::starts_with for a string pattern. -/
def starts_with (s pat : String) : Bool :=
  pat.data.isPrefixOf s.data

/-- Split a character sequence at every newline character; the newline
separators are dropped and the pieces between them all kept, so the
result always has one piece more than the text has newlines. -/
def split_newlines : List Char → List (List Char)
  | [] => [[]]
  | c :: cs =>
    if c = '\n' then [] :: split_newlines cs
    else
      match split_newlines cs with
      | [] => [[c]]
      | p :: ps => (c :: p) :: ps

/-- Remove one trailing carriage return, when present. -/
def strip_cr (l : List Char) : List Char :=
  match l.getLast? with
  | some c => if c = '\r' then l.dropLast else l
  | none => l

/-- Rust str::lines on a character sequence: split at newline characters,
strip one trailing carriage return from every piece that had a newline
after it, and drop the final piece when it is empty (a trailing line
terminator ends the last line rather than opening a new one). -/
def rust_lines_chars (cs : List Char) : List (List Char) :=
  let ps := split_newlines cs
  ps.dropLast.map strip_cr ++
    (match ps.getLast? with
     | some [] => []
     | some l => [l]
     | none => [])

/-- Rust str::lines. -/
def rust_lines (s : String) : List String :=
  (rust_lines_chars s.data).map String.mk

/-- Join character sequences with a single separator character between
consecutive pieces. -/
def joinc (sep : Char) : List (List Char) → List Char
  | [] => []
  | [x] => x
  | x :: y :: xs => x ++ sep :: joinc sep (y :: xs)

/-- Join strings with a single separator character. -/
def join_str (sep : Char) (ls : List String) : String :=
  String.mk (joinc sep (ls.map String.data))

/-- Walk a byte count into a character sequence, consuming whole
characters; none when the count lands inside a character or past the
end. Models taking a byte-index suffix of a Rust str, which panics in
exactly those cases. -/
def drop_bytes : List Char → Nat → Option (List Char)
  | cs, 0 => some cs
  | [], _ + 1 => none
  | c :: cs, n + 1 =>
    if utf8_size c ≤ n + 1 then drop_bytes cs (n + 1 - utf8_size c) else none

/-- Take exactly a byte count's worth of whole characters; none when the
count lands inside a character or past the end. -/
def take_bytes : List Char → Nat → Option (List Char)
  | _, 0 => some []
  | [], _ + 1 => none
  | c :: cs, n + 1 =>
    if utf8_size c ≤ n + 1 then
      (take_bytes cs (n + 1 - utf8_size c)).map (fun t => c :: t)
    else none

/-- The byte-index slice s[a..b] of a Rust str: some content exactly when
a ≤ b, both indices are in bounds and both fall on character boundaries;
none models the panic otherwise. -/
def byte_slice (cs : List Char) (a b : Nat) : Option (List Char) :=
  if a ≤ b then (drop_bytes cs a).bind (fun t => take_bytes t (b - a)) else none

/-! ## src/front_matter.rs -/

/-- The front-matter record of src/front_matter.rs: description is an
optional YAML key, category a required one. -/
structure FrontMatter where
  description : Option String
  category : String
deriving DecidableEq

/-- The byte bounds that extract_front_matter of src/front_matter.rs
computes before slicing: the text is split into lines; the first line
must start with "---" after trimming; the first later line trimming
exactly to "---" closes the block; the slice then starts one byte past
the first line and ends three bytes short of the length of the joined
lines up to and including the closing one. -/
def front_matter_range_lines : List String → Option (Nat × Nat)
  | [] => none
  | l0 :: rest =>
    if starts_with (rust_trim l0) "---" then
      match List.findIdx? (fun l => rust_trim l == "---") rest with
      | some j =>
        some (utf8_len l0.data + 1,
          utf8_len (join_str '\n' ((l0 :: rest).take (j + 2))).data - 3)
      | none => none
    else none

/-- The byte bounds over the content itself: line splitting first. -/
def extract_front_matter_range (content : String) : Option (Nat × Nat) :=
  front_matter_range_lines (rust_lines content)

/-- extract_front_matter of src/front_matter.rs: compute the byte bounds
and slice the content at them. A byte slice that misses a character
boundary panics in Rust; here it collapses to none. -/
def extract_front_matter (content : String) : Option String :=
  match extract_front_matter_range content with
  | none => none
  | some (a, b) => (byte_slice content.data a b).map String.mk

/-- The front-matter skip of extract_first_paragraph: after the opening
delimiter line, consume lines up to and including the first one trimming
to "---"; all of them when none closes. -/
def drop_through_close : List String → List String
  | [] => []
  | l :: rest => if rust_trim l == "---" then rest else drop_through_close rest

/-- When the first line trims exactly to "---", skip the front-matter
block; otherwise keep all lines. -/
def skip_front_matter (ls : List String) : List String :=
  match ls with
  | [] => []
  | l :: rest => if rust_trim l == "---" then drop_through_close rest else l :: rest

/-- Whether a trimmed line ends paragraph accumulation after a heading:
empty, or starting with the heading marker. -/
def is_break_line (l : String) : Bool :=
  rust_trim l == "" || starts_with (rust_trim l) "#"

/-- The paragraph search of extract_first_paragraph of
src/front_matter.rs, over the lines left after the front-matter skip.
Skip blank lines. If the first remaining line is a heading, the
paragraph is the next run of lines that are neither blank nor headings,
trimmed and joined with single spaces. If it is ordinary text instead,
the paragraph starts there and runs to the next blank line, headings
included. -/
def paragraph_after_drop : List String → Option String
  | [] => none
  | l :: rest =>
    if starts_with (rust_trim l) "#" then
      if (((rest.dropWhile is_break_line).takeWhile
          (fun x => !(is_break_line x))).map rust_trim).isEmpty then none
      else
        some (join_str ' ' (((rest.dropWhile is_break_line).takeWhile
          (fun x => !(is_break_line x))).map rust_trim))
    else
      some (join_str ' '
        (rust_trim l :: (rest.takeWhile (fun x => !(rust_trim x == ""))).map rust_trim))

/-- The paragraph search after the leading blank lines are skipped. -/
def first_paragraph_lines (ls : List String) : Option String :=
  paragraph_after_drop (ls.dropWhile (fun l => rust_trim l == ""))

/-- extract_first_paragraph over the content: skip the front matter,
then find the paragraph. -/
def extract_first_paragraph (content : String) : Option String :=
  first_paragraph_lines (skip_front_matter (rust_lines content))

/-! ## src/component.rs -/

/-- The component record of src/component.rs. A filesystem path is
modelled by its list of components, which is what Rust Path iteration,
comparison and prefix stripping operate on. -/
structure Component where
  path : List String
  description : String
  category : String
deriving DecidableEq

/-- parse_component of src/component.rs, over the file's content (the
read has already succeeded) and an external YAML parser mapping the
extracted block to a FrontMatter, none being a parse failure. The
description falls back to the first paragraph when the front matter
gives none; the path keeps only the part after base_dir when base_dir is
a prefix of it. -/
def parse_component (parse_front_matter : String → Option FrontMatter)
    (content : String) (path base_dir : List String) : Option Component :=
  (extract_front_matter content).bind (fun fm_str =>
    (parse_front_matter fm_str).bind (fun fm =>
      (fm.description.orElse (fun _ => extract_first_paragraph content)).map (fun desc =>
        { path := if base_dir.isPrefixOf path then path.drop base_dir.length else path,
          description := desc,
          category := fm.category })))

/-! ## src/config.rs -/

/-- One category entry of the configuration. -/
structure CategoryConfig where
  category : String
  title : Option String
  description : Option String
deriving DecidableEq

/-- The configuration record of src/config.rs. -/
structure Config where
  title : Option String
  description : Option String
  categories : List CategoryConfig
deriving DecidableEq

/-- The derived Default of Config: every field at its default. -/
def Config.default : Config :=
  { title := none, description := none, categories := [] }

/-- The default document title of src/config.rs. -/
def DEFAULT_TITLE : String := "Architecture Documentation"

/-- Config::title of src/config.rs (named titleOrDefault here because the
field keeps the source's name): the configured title or the default. -/
def Config.titleOrDefault (c : Config) : String :=
  c.title.getD DEFAULT_TITLE

/-- Config::get_category: first entry with the given name. -/
def Config.get_category (c : Config) (name : String) : Option CategoryConfig :=
  c.categories.find? (fun e => e.category == name)

/-- Config::display_title_for: the entry's title, or the raw name. -/
def Config.display_title_for (c : Config) (name : String) : String :=
  ((c.get_category name).bind CategoryConfig.title).getD name

/-- Config::category_order: the configured category names in order. -/
def Config.category_order (c : Config) : List String :=
  c.categories.map CategoryConfig.category

/-- Config::load of src/config.rs, over the existence check, the file
read and the external TOML parser. A missing file yields the default
configuration; read and parse failures carry a context string naming the
file. -/
def Config.load (file_exists : Bool) (read_file : Except String String)
    (toml_from_str : String → Except String Config) (path_str : String) :
    Except String Config :=
  if file_exists = false then Except.ok Config.default
  else
    match read_file with
    | Except.error _ => Except.error ("Failed to read config file: " ++ path_str)
    | Except.ok content =>
      match toml_from_str content with
      | Except.error _ => Except.error ("Failed to parse config file: " ++ path_str)
      | Except.ok cfg => Except.ok cfg

/-! ## src/generator.rs

Ordering. Rust compares str by bytes and Path by its sequence of
components; both are strict lexicographic orders built from a head
comparison, modelled by one generic sequence comparison. -/

/-- Lexicographic strict comparison of sequences from a strict head
comparison: an exhausted left side precedes a longer right side, equal
heads defer to the tails. -/
def seq_lt (lt : α → α → Bool) : List α → List α → Bool
  | _, [] => false
  | [], _ :: _ => true
  | a :: as, b :: bs =>
    if lt a b then true else if lt b a then false else seq_lt lt as bs

/-- Rust char (and UTF-8 byte) order: by code point. -/
def char_lt (a b : Char) : Bool :=
  decide (a.toNat < b.toNat)

/-- Rust str Ord: bytewise, equivalently code-point lexicographic. -/
def str_lt (a b : String) : Bool :=
  seq_lt char_lt a.data b.data

/-- Rust Path Ord: lexicographic over the sequence of components. -/
def path_lt (p q : List String) : Bool :=
  seq_lt str_lt p q

/-- The non-strict str order, as sort ascending uses it. -/
def str_le (a b : String) : Prop :=
  str_lt b a = false

instance : DecidableRel str_le :=
  fun a b => inferInstanceAs (Decidable (str_lt b a = false))

/-- The sort key of group_by_category: components ordered by path. -/
def by_path (a b : Component) : Prop :=
  path_lt b.path a.path = false

instance : DecidableRel by_path :=
  fun a b => inferInstanceAs (Decidable (path_lt b.path a.path = false))

/-- Vec::sort_unstable on strings, ascending. The sort algorithm itself
is irrelevant to the result on distinct keys; a stable insertion sort
stands in for it. -/
def sort_strings (l : List String) : List String :=
  List.insertionSort str_le l

/-- The rendered form of a path: components joined by forward slashes
(Path::display, normalized as the specification requires). -/
def path_display (p : List String) : String :=
  join_str '/' p

/-- group_by_category of src/generator.rs, read at one key: the group
map sends a category to the components carrying it, in input order, then
sorts each group by path (Vec::sort_by_key, a stable sort). -/
def group_by_category (components : List Component) (category : String) : List Component :=
  List.insertionSort by_path (components.filter (fun c => c.category == category))

/-- Whether the group map has a key, i.e. some component carries the
category. -/
def has_category (components : List Component) (name : String) : Bool :=
  components.any (fun c => c.category == name)

/-- The key set of the group map: the distinct categories occurring in
the component list. A HashMap enumerates these in an arbitrary order; the
generator functions below take that enumeration as the key_order
parameter. -/
def dedup_categories (components : List Component) : List String :=
  (components.map Component.category).dedup

/-- order_categories of src/generator.rs: the configured order filtered
to keys of the group map, then the remaining keys sorted ascending. -/
def order_categories (key_order : List String) (config : Config) : List String :=
  (config.category_order.filter (fun n => key_order.contains n)) ++
    sort_strings (key_order.filter (fun n => !(config.category_order.contains n)))

/-- generate_document of src/generator.rs. The header holds the title
and the optional document description; an empty component list returns
the header alone; otherwise one section per ordered category that has
components, holding the display title, the optional category description
and one line per component of the sorted group. -/
def generate_document (components : List Component) (config : Config)
    (key_order : List String) : String :=
  let doc := "# " ++ config.titleOrDefault ++ "\n"
  let doc :=
    match config.description with
    | some d => doc ++ "\n" ++ rust_trim_end d ++ "\n"
    | none => doc
  if components.isEmpty then doc
  else
    doc ++ String.join ((order_categories key_order config).map (fun name =>
      if has_category components name then
        let sect := "\n## " ++ config.display_title_for name ++ "\n"
        let sect :=
          match (config.get_category name).bind CategoryConfig.description with
          | some d => sect ++ "\n" ++ rust_trim_end d ++ "\n"
          | none => sect
        sect ++ "\n" ++ String.join ((group_by_category components name).map (fun c =>
          "- `" ++ path_display c.path ++ "`: " ++ c.description ++ "\n"))
      else ""))

/-! ## Order lemmas for the sequence comparisons -/

theorem seq_lt_asymm (lt : α → α → Bool)
    (hasym : ∀ a b, lt a b = true → lt b a = false) :
    ∀ x y, seq_lt lt x y = true → seq_lt lt y x = false := by
  intro x
  induction x with
  | nil =>
    intro y hy
    cases y with
    | nil => simp [seq_lt] at hy
    | cons b bs => simp [seq_lt]
  | cons a as ih =>
    intro y hy
    cases y with
    | nil => simp [seq_lt] at hy
    | cons b bs =>
      simp only [seq_lt] at hy ⊢
      by_cases hab : lt a b = true
      · simp [hab, hasym a b hab]
      · rw [Bool.not_eq_true] at hab
        by_cases hba : lt b a = true
        · simp [hab, hba] at hy
        · rw [Bool.not_eq_true] at hba
          simp [hab, hba] at hy ⊢
          exact ih bs hy

theorem seq_lt_conn (lt : α → α → Bool)
    (hconn : ∀ a b, lt a b = false → lt b a = false → a = b) :
    ∀ x y, seq_lt lt x y = false → seq_lt lt y x = false → x = y := by
  intro x
  induction x with
  | nil =>
    intro y hxy _
    cases y with
    | nil => rfl
    | cons b bs => simp [seq_lt] at hxy
  | cons a as ih =>
    intro y hxy hyx
    cases y with
    | nil => simp [seq_lt] at hyx
    | cons b bs =>
      simp only [seq_lt] at hxy hyx
      by_cases hab : lt a b = true
      · simp [hab] at hxy
      · rw [Bool.not_eq_true] at hab
        by_cases hba : lt b a = true
        · simp [hba] at hyx
        · rw [Bool.not_eq_true] at hba
          simp [hab, hba] at hxy hyx
          have heq := hconn a b hab hba
          rw [heq, ih bs hxy hyx]

theorem seq_lt_trans (lt : α → α → Bool)
    (htrans : ∀ a b c, lt a b = true → lt b c = true → lt a c = true)
    (hconn : ∀ a b, lt a b = false → lt b a = false → a = b) :
    ∀ x y z, seq_lt lt x y = true → seq_lt lt y z = true → seq_lt lt x z = true := by
  intro x
  induction x with
  | nil =>
    intro y z hxy hyz
    cases y with
    | nil => simp [seq_lt] at hxy
    | cons b bs =>
      cases z with
      | nil => simp [seq_lt] at hyz
      | cons c cs => simp [seq_lt]
  | cons a as ih =>
    intro y z hxy hyz
    cases y with
    | nil => simp [seq_lt] at hxy
    | cons b bs =>
      cases z with
      | nil => simp [seq_lt] at hyz
      | cons c cs =>
        simp only [seq_lt] at hxy hyz ⊢
        by_cases hbc : lt b c = true
        · by_cases hab : lt a b = true
          · simp [htrans a b c hab hbc]
          · rw [Bool.not_eq_true] at hab
            by_cases hba : lt b a = true
            · simp [hab, hba] at hxy
            · rw [Bool.not_eq_true] at hba
              have heq := hconn a b hab hba
              subst heq
              simp [hbc]
        · rw [Bool.not_eq_true] at hbc
          by_cases hcb : lt c b = true
          · simp [hbc, hcb] at hyz
          · rw [Bool.not_eq_true] at hcb
            have heq := hconn b c hbc hcb
            subst heq
            by_cases hab : lt a b = true
            · simp [hab]
            · rw [Bool.not_eq_true] at hab
              by_cases hba : lt b a = true
              · simp [hab, hba] at hxy
              · rw [Bool.not_eq_true] at hba
                simp [hab, hba, hbc] at hxy hyz ⊢
                exact ih bs cs hxy hyz

/-- Characters with equal code points are equal. -/
theorem char_toNat_inj {a b : Char} (h : a.toNat = b.toNat) : a = b :=
  Char.ext (UInt32.ext h)

theorem char_lt_asymm : ∀ a b : Char, char_lt a b = true → char_lt b a = false := by
  intro a b h
  simp only [char_lt, decide_eq_true_eq] at h
  simp only [char_lt, decide_eq_false_iff_not]
  omega

theorem char_lt_trans :
    ∀ a b c : Char, char_lt a b = true → char_lt b c = true → char_lt a c = true := by
  intro a b c hab hbc
  simp only [char_lt, decide_eq_true_eq] at hab hbc ⊢
  omega

theorem char_lt_conn : ∀ a b : Char, char_lt a b = false → char_lt b a = false → a = b := by
  intro a b hab hba
  simp only [char_lt, decide_eq_false_iff_not] at hab hba
  exact char_toNat_inj (by omega)

/-- Strings with equal character data are equal. -/
theorem string_data_inj : ∀ {a b : String}, a.data = b.data → a = b := by
  intro a b h
  cases a
  cases b
  simp_all

theorem str_lt_asymm : ∀ a b : String, str_lt a b = true → str_lt b a = false := by
  intro a b
  exact seq_lt_asymm char_lt char_lt_asymm a.data b.data

theorem str_lt_trans :
    ∀ a b c : String, str_lt a b = true → str_lt b c = true → str_lt a c = true := by
  intro a b c
  exact seq_lt_trans char_lt char_lt_trans char_lt_conn a.data b.data c.data

theorem str_lt_conn : ∀ a b : String, str_lt a b = false → str_lt b a = false → a = b := by
  intro a b hab hba
  exact string_data_inj (seq_lt_conn char_lt char_lt_conn a.data b.data hab hba)

theorem path_lt_asymm : ∀ p q : List String, path_lt p q = true → path_lt q p = false :=
  seq_lt_asymm str_lt str_lt_asymm

theorem path_lt_trans : ∀ p q r : List String,
    path_lt p q = true → path_lt q r = true → path_lt p r = true :=
  seq_lt_trans str_lt str_lt_trans str_lt_conn

theorem path_lt_conn : ∀ p q : List String,
    path_lt p q = false → path_lt q p = false → p = q :=
  seq_lt_conn str_lt str_lt_conn

instance : IsTotal String str_le where
  total a b := by
    unfold str_le
    by_cases h : str_lt b a = true
    · right
      exact str_lt_asymm b a h
    · left
      exact Bool.not_eq_true _ |>.mp h

instance : IsTrans String str_le where
  trans a b c hab hbc := by
    unfold str_le at hab hbc ⊢
    by_cases hca : str_lt c a = true
    · exfalso
      by_cases hbctrue : str_lt b c = true
      · have := str_lt_trans b c a hbctrue hca
        rw [this] at hab
        exact Bool.noConfusion hab
      · have heq := str_lt_conn b c (Bool.not_eq_true _ |>.mp hbctrue) hbc
        rw [heq] at hab
        rw [hca] at hab
        exact Bool.noConfusion hab
    · exact Bool.not_eq_true _ |>.mp hca

instance : IsAntisymm String str_le where
  antisymm a b hab hba := by
    unfold str_le at hab hba
    exact str_lt_conn a b hba hab

instance : IsTotal Component by_path where
  total a b := by
    unfold by_path
    by_cases h : path_lt b.path a.path = true
    · right
      exact path_lt_asymm _ _ h
    · left
      exact Bool.not_eq_true _ |>.mp h

instance : IsTrans Component by_path where
  trans a b c hab hbc := by
    unfold by_path at hab hbc ⊢
    by_cases hca : path_lt c.path a.path = true
    · exfalso
      by_cases hbctrue : path_lt b.path c.path = true
      · have := path_lt_trans b.path c.path a.path hbctrue hca
        rw [this] at hab
        exact Bool.noConfusion hab
      · have heq := path_lt_conn b.path c.path (Bool.not_eq_true _ |>.mp hbctrue) hbc
        rw [heq] at hab
        rw [hca] at hab
        exact Bool.noConfusion hab
    · exact Bool.not_eq_true _ |>.mp hca

/-! ## Helper lemmas for the generator -/

theorem bool_eq_of_iff {b c : Bool} (h : b = true ↔ c = true) : b = c := by
  cases b <;> cases c <;> simp_all

theorem contains_iff_mem (l : List String) (n : String) : l.contains n = true ↔ n ∈ l := by
  simp [List.contains, List.elem_iff]

theorem mem_dedup_categories_iff (components : List Component) (n : String) :
    n ∈ dedup_categories components ↔ has_category components n = true := by
  unfold dedup_categories has_category
  rw [List.mem_dedup]
  simp [List.any_eq_true, List.mem_map, beq_iff_eq]

/-- Claim C6 (counterexample). Two components of one category whose paths
diverge at a component boundary: the generator's path order puts a/b
before a-b/c, while the string order of the rendered paths puts a-b/c
first, so the emitted order is not the string-lexicographic one. -/
theorem c6_path_string_order_counterexample :
    group_by_category
        [{ path := ["a", "b"], description := "first", category := "T" },
         { path := ["a-b", "c"], description := "second", category := "T" }] "T"
      = [{ path := ["a", "b"], description := "first", category := "T" },
         { path := ["a-b", "c"], description := "second", category := "T" }]
    ∧ str_lt (path_display ["a-b", "c"]) (path_display ["a", "b"]) = true
    ∧ path_display ["a", "b"] ≠ path_display ["a-b", "c"] := by
  refine ⟨by decide, by decide, by decide⟩

/-- Claim C6 (amended): within each category group the components are
emitted sorted by path in Rust's path order, which compares the
sequences of path components lexicographically; the group is a
permutation of the components carrying the category, and only those. -/
theorem c6_group_by_category_sorted (components : List Component) (category : String) :
    List.Sorted by_path (group_by_category components category)
    ∧ (group_by_category components category).Perm
        (components.filter (fun c => c.category == category))
    ∧ ∀ c ∈ group_by_category components category, c.category = category := by
  refine ⟨List.sorted_insertionSort by_path _, List.perm_insertionSort by_path _, ?_⟩
  intro c hc
  have hmem := (List.perm_insertionSort by_path
    (components.filter (fun c => c.category == category))).mem_iff.mp hc
  have hp := List.of_mem_filter (p := fun (d : Component) => d.category == category) hmem
  exact eq_of_beq hp

/-- Claim C1: for every component list, config and enumeration of the
group map's keys, the ordered category list is exactly the config's
category order filtered to categories that have components, followed by
the categories with components that the config does not list, sorted
ascending; every ordered category has at least one component, so
configured categories without components produce no section. -/
theorem c1_order_categories_exact (components : List Component) (config : Config)
    (key_order : List String) (hko : key_order.Perm (dedup_categories components)) :
    ∃ unlisted : List String,
      order_categories key_order config
          = config.category_order.filter (fun n => has_category components n)
            ++ unlisted
        ∧ unlisted.Perm ((dedup_categories components).filter
            (fun n => !(config.category_order.contains n)))
        ∧ List.Sorted str_le unlisted
        ∧ ∀ n ∈ order_categories key_order config, has_category components n = true := by
  have hmemko : ∀ n : String, n ∈ key_order ↔ has_category components n = true := by
    intro n
    rw [hko.mem_iff]
    exact mem_dedup_categories_iff components n
  refine ⟨sort_strings (key_order.filter (fun n => !(config.category_order.contains n))),
    ?_, ?_, ?_, ?_⟩
  · unfold order_categories
    congr 1
    apply List.filter_congr
    intro n _
    exact bool_eq_of_iff ((contains_iff_mem key_order n).trans (hmemko n))
  · exact (List.perm_insertionSort str_le _).trans (hko.filter _)
  · exact List.sorted_insertionSort str_le _
  · intro n hn
    unfold order_categories at hn
    rcases List.mem_append.mp hn with h | h
    · exact (hmemko n).mp ((contains_iff_mem key_order n).mp (List.of_mem_filter h))
    · have hmem := (List.perm_insertionSort str_le
        (key_order.filter (fun n => !(config.category_order.contains n)))).mem_iff.mp h
      exact (hmemko n).mp (List.mem_of_mem_filter hmem)

/-- Claim C1 (witness): a concrete component list, config and key
enumeration, with the conclusion evaluated. -/
theorem c1_witness :
    ∃ unlisted : List String,
      order_categories ["Alpha", "Beta"]
          { title := none, description := none,
            categories := [{ category := "Beta", title := none, description := none },
                           { category := "Gamma", title := none, description := none }] }
          = (Config.category_order
              { title := none, description := none,
                categories := [{ category := "Beta", title := none, description := none },
                               { category := "Gamma", title := none, description := none }] }).filter
              (fun n => has_category
                [{ path := ["b"], description := "dB", category := "Beta" },
                 { path := ["a"], description := "dA", category := "Alpha" }] n)
            ++ unlisted
        ∧ unlisted.Perm ((dedup_categories
            [{ path := ["b"], description := "dB", category := "Beta" },
             { path := ["a"], description := "dA", category := "Alpha" }]).filter
            (fun n => !((Config.category_order
              { title := none, description := none,
                categories := [{ category := "Beta", title := none, description := none },
                               { category := "Gamma", title := none, description := none }] }).contains n)))
        ∧ List.Sorted str_le unlisted
        ∧ ∀ n ∈ order_categories ["Alpha", "Beta"]
            { title := none, description := none,
              categories := [{ category := "Beta", title := none, description := none },
                             { category := "Gamma", title := none, description := none }] },
            has_category
              [{ path := ["b"], description := "dB", category := "Beta" },
               { path := ["a"], description := "dA", category := "Alpha" }] n = true :=
  c1_order_categories_exact
    [{ path := ["b"], description := "dB", category := "Beta" },
     { path := ["a"], description := "dA", category := "Alpha" }]
    { title := none, description := none,
      categories := [{ category := "Beta", title := none, description := none },
                     { category := "Gamma", title := none, description := none }] }
    ["Alpha", "Beta"] (by decide)

/-- Claim C9: the generated document does not depend on the enumeration
order of the group map's keys; with the key enumeration as the only
source of nondeterminism, two runs on the same components and config
produce byte-identical output. -/
theorem c9_generate_document_deterministic (components : List Component) (config : Config)
    (ko1 ko2 : List String) (hperm : ko1.Perm ko2) :
    generate_document components config ko1 = generate_document components config ko2 := by
  have horder : order_categories ko1 config = order_categories ko2 config := by
    unfold order_categories
    congr 1
    · apply List.filter_congr
      intro n _
      exact bool_eq_of_iff ((contains_iff_mem ko1 n).trans
        (hperm.mem_iff.trans (contains_iff_mem ko2 n).symm))
    · apply List.eq_of_perm_of_sorted (r := str_le)
      · exact (List.perm_insertionSort str_le _).trans
          ((hperm.filter _).trans (List.perm_insertionSort str_le _).symm)
      · exact List.sorted_insertionSort str_le _
      · exact List.sorted_insertionSort str_le _
  unfold generate_document
  rw [horder]

/-- Claim C9 (witness): two enumerations of the keys of a two-category
component list produce the same document. -/
theorem c9_witness :
    generate_document
        [{ path := ["a"], description := "dA", category := "X" },
         { path := ["b"], description := "dB", category := "Y" }]
        Config.default ["X", "Y"]
      = generate_document
        [{ path := ["a"], description := "dA", category := "X" },
         { path := ["b"], description := "dB", category := "Y" }]
        Config.default ["Y", "X"] :=
  c9_generate_document_deterministic _ _ _ _ (by decide)

/-- Claim C7: the empty component sequence under the defaulted config
yields exactly the header line and nothing else. -/
theorem c7_empty_components_default_config (key_order : List String) :
    generate_document [] Config.default key_order = "# Architecture Documentation\n" := by
  rfl

/-- Claim C8: a missing config file loads as the default configuration
(a success), and a TOML parse failure propagates as an error whose
context names the file. -/
theorem c8_config_load_missing_and_parse_error (read_file : Except String String)
    (toml_from_str : String → Except String Config) (path_str : String) :
    Config.load false read_file toml_from_str path_str
        = Except.ok { title := none, description := none, categories := [] }
      ∧ ∀ content err, read_file = Except.ok content →
          toml_from_str content = Except.error err →
          Config.load true read_file toml_from_str path_str
            = Except.error ("Failed to parse config file: " ++ path_str) := by
  constructor
  · rfl
  · intro content err hrf htp
    simp [Config.load, hrf, htp]

/-- Claim C8 (witness): a concrete missing-file load and a concrete
failing parse. -/
theorem c8_witness :
    Config.load false (Except.ok "x") (fun _ => Except.error "bad") "arch.toml"
        = Except.ok { title := none, description := none, categories := [] }
      ∧ Config.load true (Except.ok "x") (fun _ => Except.error "bad") "arch.toml"
        = Except.error ("Failed to parse config file: " ++ "arch.toml") := by
  have h := c8_config_load_missing_and_parse_error
    (Except.ok "x") (fun _ => Except.error "bad") "arch.toml"
  exact ⟨h.1, h.2 "x" "bad" rfl rfl⟩

/-! ## Front-matter extraction: the delimiter arithmetic -/

/-- Claim C2: the slice arithmetic ends three bytes, not four, before the
end of the closing delimiter line, so the extracted block keeps the line
terminator that precedes the closing delimiter. On the literal
three-line input with body "a: b" the extraction returns "a: b" plus a
trailing newline, not the body alone. -/
theorem c2_front_matter_keeps_terminator :
    extract_front_matter "---\na: b\n---\nrest" = some "a: b\n"
    ∧ some "a: b\n" ≠ some "a: b" := by
  refine ⟨by decide, by decide⟩

/-- Claim C5 (counterexample): the opening check trims the first line
before testing for the delimiter, so leading whitespace before the
opening delimiter is tolerated and extraction succeeds where the claim
requires the not-found sentinel. -/
theorem c5_leading_whitespace_counterexample :
    extract_front_matter_range " ---\nx\n---\n" ≠ none
    ∧ extract_front_matter " ---\nx\n---\n" = some "x\n" := by
  refine ⟨by decide, by decide⟩

/-- Claim C5 (amended): extraction yields the not-found sentinel exactly
when the input has no lines, when its first line does not start with
"---" after trimming surrounding whitespace (so leading whitespace on
the opening line is tolerated), or when no later line trims exactly to
"---". -/
theorem c5_sentinel_characterization (content : String) :
    (extract_front_matter_range content = none ↔
      rust_lines content = []
      ∨ ∃ l0 rest, rust_lines content = l0 :: rest
          ∧ (starts_with (rust_trim l0) "---" = false
             ∨ ∀ l ∈ rest, rust_trim l ≠ "---"))
    ∧ (extract_front_matter_range content = none → extract_front_matter content = none) := by
  refine ⟨?_, ?_⟩
  case refine_2 =>
    intro hnone
    unfold extract_front_matter
    rw [hnone]
  unfold extract_front_matter_range
  cases h : rust_lines content with
  | nil => simp [front_matter_range_lines]
  | cons l0 rest =>
    constructor
    · intro hrange
      by_cases hs : starts_with (rust_trim l0) "---"
      · cases hf : List.findIdx? (fun l => rust_trim l == "---") rest with
        | some j =>
          rw [front_matter_range_lines, if_pos hs, hf] at hrange
          exact absurd hrange (by simp)
        | none =>
          refine Or.inr ⟨l0, rest, rfl, Or.inr ?_⟩
          intro l hl
          have hp := List.findIdx?_eq_none_iff.mp hf l hl
          simpa [beq_eq_false_iff_ne] using hp
      · exact Or.inr ⟨l0, rest, rfl, Or.inl (by simpa using hs)⟩
    · intro hrhs
      rcases hrhs with hnil | ⟨l0', rest', heq, hcond⟩
      · exact absurd hnil (by simp)
      · injection heq with h1 h2
        subst h1
        subst h2
        rcases hcond with hs | hall
        · rw [front_matter_range_lines, if_neg (by simp [hs])]
        · by_cases hs : starts_with (rust_trim l0) "---"
          · have hnone : List.findIdx? (fun l => rust_trim l == "---") rest = none := by
              apply List.findIdx?_eq_none_iff.mpr
              intro l hl
              simpa [beq_eq_false_iff_ne] using hall l hl
            rw [front_matter_range_lines, if_pos hs, hnone]
          · rw [front_matter_range_lines, if_neg hs]

/-- Claim C10: on an input mixing CRLF line endings with a multi-byte
character, the computed slice bounds land inside the three-byte euro
sign: the range is computed but the byte slice rejects it, which in Rust
is an out-of-boundary panic rather than a normal return. -/
theorem c10_crlf_multibyte_slice_misaligned :
    extract_front_matter_range "---\r\na\r\n€\n---\n" = some (4, 10)
    ∧ byte_slice "---\r\na\r\n€\n---\n".data 4 10 = none
    ∧ extract_front_matter "---\r\na\r\n€\n---\n" = none := by
  refine ⟨by decide, by decide, by decide⟩

/-! ## Line and trim lemmas for the paragraph extraction -/

theorem dropWhile_head_false (p : α → Bool) :
    ∀ (l : List α) (c : α) (t : List α), l.dropWhile p = c :: t → p c = false := by
  intro l
  induction l with
  | nil => intro c t h; simp at h
  | cons a as ih =>
    intro c t h
    rw [List.dropWhile_cons] at h
    by_cases hp : p a = true
    · rw [if_pos hp] at h
      exact ih c t h
    · rw [if_neg hp] at h
      injection h with h1 _
      subst h1
      rw [Bool.not_eq_true] at hp
      exact hp

theorem split_newlines_no_newline :
    ∀ (cs : List Char), ∀ l ∈ split_newlines cs, '\n' ∉ l := by
  intro cs
  induction cs with
  | nil =>
    intro l hl
    simp only [split_newlines, List.mem_singleton] at hl
    subst hl
    simp
  | cons c cs ih =>
    intro l hl
    by_cases hc : c = '\n'
    · subst hc
      simp only [split_newlines, if_pos rfl] at hl
      rcases List.mem_cons.mp hl with h | h
      · subst h; simp
      · exact ih l h
    · simp only [split_newlines, if_neg hc] at hl
      cases hsp : split_newlines cs with
      | nil =>
        rw [hsp] at hl
        rcases List.mem_cons.mp hl with h | h
        · subst h
          intro hmem
          rw [List.mem_singleton] at hmem
          exact hc hmem.symm
        · simp at h
      | cons q qs =>
        rw [hsp] at hl
        rcases List.mem_cons.mp hl with h | h
        · subst h
          intro hmem
          rcases List.mem_cons.mp hmem with h | h
          · exact hc h.symm
          · exact ih q (by rw [hsp]; exact List.mem_cons_self q qs) h
        · exact ih l (by rw [hsp]; exact List.mem_cons_of_mem q h)

theorem strip_cr_subset (l : List Char) : strip_cr l ⊆ l := by
  unfold strip_cr
  cases h : l.getLast? with
  | none => exact fun x hx => hx
  | some c =>
    show (if c = '\r' then l.dropLast else l) ⊆ l
    by_cases hc : c = '\r'
    · rw [if_pos hc]
      exact (List.dropLast_sublist l).subset
    · rw [if_neg hc]
      exact fun x hx => hx

theorem rust_lines_chars_no_newline (cs : List Char) :
    ∀ l ∈ rust_lines_chars cs, '\n' ∉ l := by
  intro l hl
  unfold rust_lines_chars at hl
  rcases List.mem_append.mp hl with h | h
  · rcases List.mem_map.mp h with ⟨q, hq, rfl⟩
    intro hmem
    exact split_newlines_no_newline cs q
      ((List.dropLast_sublist _).subset hq) (strip_cr_subset q hmem)
  · cases hg : (split_newlines cs).getLast? with
    | none =>
      rw [hg] at h
      simp at h
    | some q =>
      cases q with
      | nil =>
        rw [hg] at h
        simp at h
      | cons a t =>
        rw [hg] at h
        have hl2 : l = a :: t := by simpa using h
        subst hl2
        exact split_newlines_no_newline cs _ (List.mem_of_mem_getLast? hg)

theorem rust_lines_no_newline (s : String) : ∀ l ∈ rust_lines s, '\n' ∉ l.data := by
  intro l hl
  unfold rust_lines at hl
  rcases List.mem_map.mp hl with ⟨q, hq, rfl⟩
  exact rust_lines_chars_no_newline s.data q hq

theorem trim_chars_subset (l : List Char) : trim_chars l ⊆ l := by
  unfold trim_chars
  intro c hc
  rw [List.mem_reverse] at hc
  have h1 := (List.dropWhile_suffix is_rust_whitespace).subset hc
  rw [List.mem_reverse] at h1
  exact (List.dropWhile_suffix is_rust_whitespace).subset h1

theorem trim_chars_head_not_ws (l : List Char) (c : Char) (t : List Char)
    (h : trim_chars l = c :: t) : is_rust_whitespace c = false := by
  unfold trim_chars at h
  have hsuf := List.dropWhile_suffix
    (l := (l.dropWhile is_rust_whitespace).reverse) is_rust_whitespace
  have hpre := List.reverse_prefix.mpr hsuf
  rw [List.reverse_reverse] at hpre
  rw [h] at hpre
  obtain ⟨s, hs⟩ := hpre
  rw [List.cons_append] at hs
  exact dropWhile_head_false is_rust_whitespace l c (t ++ s) hs.symm

theorem trim_chars_getLast_not_ws (l : List Char) (c : Char)
    (h : (trim_chars l).getLast? = some c) : is_rust_whitespace c = false := by
  unfold trim_chars at h
  rw [List.getLast?_reverse] at h
  cases hY : (l.dropWhile is_rust_whitespace).reverse.dropWhile is_rust_whitespace with
  | nil =>
    rw [hY] at h
    simp at h
  | cons a t =>
    rw [hY] at h
    have ha : a = c := by simpa using h
    subst ha
    exact dropWhile_head_false is_rust_whitespace _ a t hY

theorem trim_chars_eq_self (l : List Char)
    (hh : ∀ c, l.head? = some c → is_rust_whitespace c = false)
    (hl : ∀ c, l.getLast? = some c → is_rust_whitespace c = false) :
    trim_chars l = l := by
  unfold trim_chars
  have h1 : l.dropWhile is_rust_whitespace = l := by
    cases l with
    | nil => rfl
    | cons c t =>
      rw [List.dropWhile_cons, if_neg]
      rw [hh c rfl]
      simp
  rw [h1]
  have h2 : l.reverse.dropWhile is_rust_whitespace = l.reverse := by
    cases hr : l.reverse with
    | nil => rfl
    | cons c t =>
      have hc : l.getLast? = some c := by
        rw [← List.head?_reverse, hr]
        rfl
      rw [List.dropWhile_cons, if_neg]
      rw [hl c hc]
      simp
  rw [h2, List.reverse_reverse]

/-! ## Join lemmas -/

theorem joinc_ne_nil (sep : Char) (x : List Char) (xs : List (List Char)) (hx : x ≠ []) :
    joinc sep (x :: xs) ≠ [] := by
  cases xs with
  | nil => exact hx
  | cons y ys =>
    show x ++ sep :: joinc sep (y :: ys) ≠ []
    simp

theorem joinc_head? (sep : Char) (x : List Char) (xs : List (List Char)) (hx : x ≠ []) :
    (joinc sep (x :: xs)).head? = x.head? := by
  cases xs with
  | nil => rfl
  | cons y ys =>
    show (x ++ sep :: joinc sep (y :: ys)).head? = x.head?
    cases x with
    | nil => exact absurd rfl hx
    | cons c t => rfl

theorem joinc_getLast?_mem (sep : Char) :
    ∀ (xs : List (List Char)) (x : List Char), (∀ q ∈ x :: xs, q ≠ []) →
    ∃ q, q ∈ x :: xs ∧ (joinc sep (x :: xs)).getLast? = q.getLast? := by
  intro xs
  induction xs with
  | nil =>
    intro x _
    exact ⟨x, List.mem_singleton.mpr rfl, rfl⟩
  | cons y ys ih =>
    intro x hall
    obtain ⟨q, hq, hlast⟩ := ih y (fun q hq => hall q (List.mem_cons_of_mem x hq))
    refine ⟨q, List.mem_cons_of_mem x hq, ?_⟩
    show (x ++ sep :: joinc sep (y :: ys)).getLast? = q.getLast?
    have hjne : joinc sep (y :: ys) ≠ [] :=
      joinc_ne_nil sep y ys (hall y (List.mem_cons_of_mem x (List.mem_cons_self y ys)))
    rw [List.getLast?_append]
    rw [← List.singleton_append, List.getLast?_append]
    cases hj : joinc sep (y :: ys) with
    | nil => exact absurd hj hjne
    | cons a t =>
      rw [hj] at hlast
      rw [← hlast]
      have : (a :: t).getLast?.isSome := by
        rw [List.getLast?_cons]
        simp
      cases hg : (a :: t).getLast? with
      | none => rw [hg] at this; simp at this
      | some b => rfl

theorem joinc_mem (sep : Char) :
    ∀ (ps : List (List Char)) (c : Char),
    c ∈ joinc sep ps → c = sep ∨ ∃ q ∈ ps, c ∈ q := by
  intro ps
  induction ps with
  | nil =>
    intro c hc
    simp [joinc] at hc
  | cons x xs ih =>
    cases xs with
    | nil =>
      intro c hc
      right
      exact ⟨x, List.mem_cons_self x [], hc⟩
    | cons y ys =>
      intro c hc
      rcases List.mem_append.mp hc with h | h
      · right
        exact ⟨x, List.mem_cons_self x (y :: ys), h⟩
      · rcases List.mem_cons.mp h with h | h
        · left
          exact h
        · rcases ih c h with h | ⟨q, hq, hcq⟩
          · left
            exact h
          · right
            exact ⟨q, List.mem_cons_of_mem x hq, hcq⟩

/-! ## The paragraph shape -/

theorem join_str_trim_fixed (x : String) (xs : List String)
    (hall : ∀ l ∈ x :: xs, rust_trim l ≠ "") :
    rust_trim (join_str ' ' ((x :: xs).map rust_trim)) = join_str ' ' ((x :: xs).map rust_trim) := by
  have hne_all : ∀ q ∈ ((x :: xs).map rust_trim).map String.data, q ≠ [] := by
    intro q hq
    rw [List.map_map] at hq
    rcases List.mem_map.mp hq with ⟨l, hl, rfl⟩
    intro hnil
    exact hall l hl (string_data_inj hnil)
  have htrim_of : ∀ q ∈ ((x :: xs).map rust_trim).map String.data,
      ∃ l : String, q = trim_chars l.data := by
    intro q hq
    rw [List.map_map] at hq
    rcases List.mem_map.mp hq with ⟨l, hl, rfl⟩
    exact ⟨l, rfl⟩
  have hJ : trim_chars (joinc ' ' (((x :: xs).map rust_trim).map String.data))
      = joinc ' ' (((x :: xs).map rust_trim).map String.data) := by
    apply trim_chars_eq_self
    · intro c hc
      simp only [List.map_cons] at hc
      have hxne : (rust_trim x).data ≠ [] := by
        apply hne_all
        simp only [List.map_cons]
        exact List.mem_cons_self _ _
      rw [joinc_head? ' ' (rust_trim x).data _ hxne] at hc
      cases ht : (rust_trim x).data with
      | nil =>
        rw [ht] at hc
        simp at hc
      | cons a t =>
        rw [ht] at hc
        have ha : a = c := by simpa using hc
        subst ha
        exact trim_chars_head_not_ws x.data a t ht
    · intro c hc
      simp only [List.map_cons] at hc
      obtain ⟨q, hq, hlast⟩ := joinc_getLast?_mem ' '
        ((xs.map rust_trim).map String.data) (rust_trim x).data
        (fun q hq => hne_all q (by simpa only [List.map_cons] using hq))
      rw [hlast] at hc
      obtain ⟨l, hl⟩ := htrim_of q (by simpa only [List.map_cons] using hq)
      subst hl
      exact trim_chars_getLast_not_ws l.data c hc
  show String.mk (trim_chars (joinc ' ' (((x :: xs).map rust_trim).map String.data))) = _
  rw [hJ]
  rfl

theorem join_str_ne_empty (x : String) (xs : List String) (hx : rust_trim x ≠ "") :
    join_str ' ' ((x :: xs).map rust_trim) ≠ "" := by
  intro h
  have hdata : joinc ' ' (((x :: xs).map rust_trim).map String.data) = [] :=
    congrArg String.data h
  rw [List.map_cons, List.map_cons] at hdata
  exact joinc_ne_nil ' ' (rust_trim x).data _
    (fun hx2 => hx (string_data_inj hx2)) hdata

theorem join_str_no_newline (ls : List String)
    (hsrc : ∀ l ∈ ls, '\n' ∉ (rust_trim l).data) :
    '\n' ∉ (join_str ' ' (ls.map rust_trim)).data := by
  intro hmem
  rcases joinc_mem ' ' ((ls.map rust_trim).map String.data) '\n' hmem with h | ⟨q, hq, hcq⟩
  · exact absurd h (by decide)
  · rw [List.map_map] at hq
    rcases List.mem_map.mp hq with ⟨l, hl, rfl⟩
    exact hsrc l hl hcq

theorem drop_through_close_suffix : ∀ ls : List String, drop_through_close ls <:+ ls := by
  intro ls
  induction ls with
  | nil => exact List.suffix_refl []
  | cons l rest ih =>
    show (if rust_trim l == "---" then rest else drop_through_close rest) <:+ l :: rest
    by_cases h : (rust_trim l == "---") = true
    · rw [if_pos h]
      exact List.suffix_cons l rest
    · rw [if_neg h]
      exact ih.trans (List.suffix_cons l rest)

theorem skip_front_matter_suffix (ls : List String) : skip_front_matter ls <:+ ls := by
  cases ls with
  | nil => exact List.suffix_refl []
  | cons l rest =>
    show (if rust_trim l == "---" then drop_through_close rest else l :: rest) <:+ l :: rest
    by_cases h : (rust_trim l == "---") = true
    · rw [if_pos h]
      exact (drop_through_close_suffix rest).trans (List.suffix_cons l rest)
    · rw [if_neg h]

theorem first_paragraph_lines_spec (ls : List String) (p : String)
    (h : first_paragraph_lines ls = some p) :
    ∃ x xs, (∀ l ∈ x :: xs, rust_trim l ≠ "")
      ∧ p = join_str ' ' ((x :: xs).map rust_trim)
      ∧ (x :: xs : List String) <:+: ls := by
  unfold first_paragraph_lines at h
  cases hd : ls.dropWhile (fun l => rust_trim l == "") with
  | nil =>
    rw [hd] at h
    exact absurd h (by simp [paragraph_after_drop])
  | cons l rest =>
    rw [hd] at h
    simp only [paragraph_after_drop] at h
    have hcons_suffix : l :: rest <:+ ls :=
      hd ▸ List.dropWhile_suffix (fun l => rust_trim l == "")
    have hrest_suffix : rest <:+ ls := (List.suffix_cons l rest).trans hcons_suffix
    by_cases hs : starts_with (rust_trim l) "#" = true
    · rw [if_pos hs] at h
      cases hsub : (rest.dropWhile is_break_line).takeWhile (fun x => !(is_break_line x)) with
      | nil =>
        rw [hsub] at h
        simp at h
      | cons x xs =>
        rw [hsub] at h
        simp only [List.map_cons, List.isEmpty_cons, Bool.false_eq_true, if_false] at h
        refine ⟨x, xs, ?_, ?_, ?_⟩
        · intro q hq
          have hmem : q ∈ (rest.dropWhile is_break_line).takeWhile
              (fun x => !(is_break_line x)) := by
            rw [hsub]
            exact hq
          have hbreak := List.mem_takeWhile_imp hmem
          intro hempty
          rw [Bool.not_eq_true'] at hbreak
          have hfalse : (rust_trim q == "") = false := by
            unfold is_break_line at hbreak
            exact (Bool.or_eq_false_iff.mp hbreak).1
          rw [hempty] at hfalse
          simp at hfalse
        · injection h with h2
          rw [← h2]
          rw [List.map_cons]
        · have h1 : (x :: xs : List String) <+: rest.dropWhile is_break_line := by
            rw [← hsub]
            exact List.takeWhile_prefix _
          exact h1.isInfix.trans
            (((List.dropWhile_suffix is_break_line).trans hrest_suffix).isInfix)
    · rw [if_neg hs] at h
      refine ⟨l, rest.takeWhile (fun x => !(rust_trim x == "")), ?_, ?_, ?_⟩
      · intro q hq
        rcases List.mem_cons.mp hq with hq | hq
        · subst hq
          intro hempty
          have hhead : (rust_trim q == "") = false :=
            dropWhile_head_false (fun s => rust_trim s == "") ls _ _ hd
          rw [hempty] at hhead
          simp at hhead
        · have htake := List.mem_takeWhile_imp hq
          rw [Bool.not_eq_true'] at htake
          intro hempty
          rw [hempty] at htake
          simp at htake
      · injection h with h2
        rw [← h2]
        rw [List.map_cons]
      · have h1 : l :: rest.takeWhile (fun x => !(rust_trim x == "")) <+: l :: rest :=
          List.cons_prefix_cons.mpr ⟨rfl, List.takeWhile_prefix _⟩
        exact h1.isInfix.trans hcons_suffix.isInfix

/-- The full shape of a returned paragraph: a nonempty contiguous run of
lines of the input, none blank after trimming, trimmed and joined with
single spaces; the result is trim-fixed, non-empty and free of line
breaks. -/
theorem extract_first_paragraph_spec (content p : String)
    (h : extract_first_paragraph content = some p) :
    ∃ x xs, (∀ l ∈ x :: xs, rust_trim l ≠ "")
      ∧ p = join_str ' ' ((x :: xs).map rust_trim)
      ∧ (x :: xs : List String) <:+: rust_lines content
      ∧ rust_trim p = p ∧ p ≠ "" ∧ '\n' ∉ p.data := by
  unfold extract_first_paragraph at h
  obtain ⟨x, xs, hall, hp, hinf⟩ := first_paragraph_lines_spec _ p h
  have hinf2 : (x :: xs : List String) <:+: rust_lines content :=
    hinf.trans (skip_front_matter_suffix (rust_lines content)).isInfix
  refine ⟨x, xs, hall, hp, hinf2, ?_, ?_, ?_⟩
  · rw [hp]
    exact join_str_trim_fixed x xs hall
  · rw [hp]
    exact join_str_ne_empty x xs (hall x (List.mem_cons_self x xs))
  · rw [hp]
    apply join_str_no_newline
    intro l hl hmem
    have hline : '\n' ∉ l.data :=
      rust_lines_no_newline content l (hinf2.subset hl)
    exact hline (trim_chars_subset l.data hmem)

/-- Claim C4 (counterexample): a paragraph that begins before any heading
accumulates a following heading line instead of stopping at it — the
input whose lines are "foo" then "# bar" yields the paragraph
"foo # bar", where the claim requires accumulation to stop at the
heading line. -/
theorem c4_heading_absorbed_counterexample :
    extract_first_paragraph "foo\n# bar" = some "foo # bar"
    ∧ some "foo # bar" ≠ some "foo" := by
  refine ⟨by decide, by decide⟩

/-- Claim C4 (amended): the exact stopping rules of the paragraph
search. After the front matter and the leading blank lines are skipped,
the first remaining line is non-blank. When it is not a heading, the
paragraph begins there and extends over exactly the following run of
non-blank lines — it stops at the first blank line only, so heading
lines are accumulated — trimmed and joined with single spaces. When it
is a heading, the search skips exactly the following run of blank and
heading lines, and the paragraph is precisely the next nonempty run of
lines that are neither blank nor headings, stopping at the first blank
or heading line, trimmed and joined with single spaces. Either way the
result has no leading or trailing whitespace and no internal line
break. -/
theorem c4_paragraph_amended (content p : String)
    (h : extract_first_paragraph content = some p) :
    ∃ l rest,
      (skip_front_matter (rust_lines content)).dropWhile (fun x => rust_trim x == "")
          = l :: rest
      ∧ rust_trim l ≠ ""
      ∧ ((starts_with (rust_trim l) "#" = false
          ∧ ∃ para after, rest = para ++ after
              ∧ (∀ x ∈ para, rust_trim x ≠ "")
              ∧ (∀ a, after.head? = some a → rust_trim a = "")
              ∧ p = join_str ' ' ((l :: para).map rust_trim))
        ∨ (starts_with (rust_trim l) "#" = true
          ∧ ∃ skipped para after, rest = skipped ++ para ++ after
              ∧ (∀ x ∈ skipped, is_break_line x = true)
              ∧ para ≠ []
              ∧ (∀ x ∈ para, is_break_line x = false)
              ∧ (∀ a, after.head? = some a → is_break_line a = true)
              ∧ p = join_str ' ' (para.map rust_trim)))
      ∧ rust_trim p = p
      ∧ '\n' ∉ p.data := by
  obtain ⟨_, _, _, _, _, hfix, _, hnl⟩ := extract_first_paragraph_spec content p h
  unfold extract_first_paragraph first_paragraph_lines at h
  cases hd : (skip_front_matter (rust_lines content)).dropWhile (fun x => rust_trim x == "") with
  | nil =>
    rw [hd] at h
    exact absurd h (by simp [paragraph_after_drop])
  | cons l rest =>
    rw [hd] at h
    simp only [paragraph_after_drop] at h
    refine ⟨l, rest, rfl, ?_, ?_, hfix, hnl⟩
    · have hhead : (rust_trim l == "") = false :=
        dropWhile_head_false (fun x => rust_trim x == "") _ _ _ hd
      intro he
      rw [he] at hhead
      simp at hhead
    · by_cases hs : starts_with (rust_trim l) "#" = true
      · rw [if_pos hs] at h
        cases hpara : (rest.dropWhile is_break_line).takeWhile (fun x => !(is_break_line x)) with
        | nil =>
          rw [hpara] at h
          simp at h
        | cons x xs =>
          rw [hpara] at h
          simp only [List.map_cons, List.isEmpty_cons, Bool.false_eq_true, if_false] at h
          injection h with h2
          refine Or.inr ⟨hs, rest.takeWhile is_break_line, x :: xs,
            (rest.dropWhile is_break_line).dropWhile (fun x => !(is_break_line x)),
            ?_, ?_, ?_, ?_, ?_, ?_⟩
          · have hmid : (x :: xs) ++
                (rest.dropWhile is_break_line).dropWhile (fun x => !(is_break_line x))
                = rest.dropWhile is_break_line := by
              rw [← hpara]
              exact List.takeWhile_append_dropWhile _ _
            rw [List.append_assoc, hmid, List.takeWhile_append_dropWhile]
          · intro y hy
            exact List.mem_takeWhile_imp hy
          · simp
          · intro y hy
            rw [← hpara] at hy
            have hb := List.mem_takeWhile_imp hy
            rw [Bool.not_eq_true'] at hb
            exact hb
          · intro a ha
            cases hafter : (rest.dropWhile is_break_line).dropWhile
                (fun x => !(is_break_line x)) with
            | nil =>
              rw [hafter] at ha
              simp at ha
            | cons a0 t =>
              rw [hafter] at ha
              have ha0 : a0 = a := by simpa using ha
              subst ha0
              have hb := dropWhile_head_false (fun x => !(is_break_line x)) _ _ _ hafter
              rw [Bool.not_eq_false'] at hb
              exact hb
          · exact h2.symm
      · rw [if_neg hs] at h
        injection h with h2
        rw [Bool.not_eq_true] at hs
        refine Or.inl ⟨hs, rest.takeWhile (fun x => !(rust_trim x == "")),
          rest.dropWhile (fun x => !(rust_trim x == "")), ?_, ?_, ?_, ?_⟩
        · exact (List.takeWhile_append_dropWhile _ _).symm
        · intro y hy
          have hb := List.mem_takeWhile_imp hy
          rw [Bool.not_eq_true'] at hb
          intro he
          rw [he] at hb
          simp at hb
        · intro a ha
          cases hafter : rest.dropWhile (fun x => !(rust_trim x == "")) with
          | nil =>
            rw [hafter] at ha
            simp at ha
          | cons a0 t =>
            rw [hafter] at ha
            have ha0 : a0 = a := by simpa using ha
            subst ha0
            have hb := dropWhile_head_false (fun x => !(rust_trim x == "")) _ _ _ hafter
            rw [Bool.not_eq_false'] at hb
            exact eq_of_beq hb
        · exact h2.symm

/-- Claim C4 (witness): a two-line paragraph after a heading, with the
conclusion evaluated at the concrete input. -/
theorem c4_witness :
    ∃ l rest,
      (skip_front_matter (rust_lines "# T\n\nhello world\nsecond\n\nrest")).dropWhile
            (fun x => rust_trim x == "")
          = l :: rest
      ∧ rust_trim l ≠ ""
      ∧ ((starts_with (rust_trim l) "#" = false
          ∧ ∃ para after, rest = para ++ after
              ∧ (∀ x ∈ para, rust_trim x ≠ "")
              ∧ (∀ a, after.head? = some a → rust_trim a = "")
              ∧ "hello world second" = join_str ' ' ((l :: para).map rust_trim))
        ∨ (starts_with (rust_trim l) "#" = true
          ∧ ∃ skipped para after, rest = skipped ++ para ++ after
              ∧ (∀ x ∈ skipped, is_break_line x = true)
              ∧ para ≠ []
              ∧ (∀ x ∈ para, is_break_line x = false)
              ∧ (∀ a, after.head? = some a → is_break_line a = true)
              ∧ "hello world second" = join_str ' ' (para.map rust_trim)))
      ∧ rust_trim "hello world second" = "hello world second"
      ∧ '\n' ∉ "hello world second".data :=
  c4_paragraph_amended "# T\n\nhello world\nsecond\n\nrest" "hello world second" (by decide)

/-! ## Component parsing -/

/-- Claim C3 (counterexample): parse_component validates neither field
for emptiness. With front matter declaring an empty category (which the
external YAML parser maps to the empty string, as serde_yaml does for
the document "category: ''"), parsing succeeds and the resulting
component's category is the empty string. -/
theorem c3_empty_category_counterexample :
    parse_component (fun _ => some { description := some "x", category := "" })
        "---\ncategory: ''\ndescription: x\n---\n" ["c.md"] []
      = some { path := ["c.md"], description := "x", category := "" } := by
  decide

/-- Claim C3 (amended): a successfully parsed component's category is
the front matter's category verbatim — non-empty exactly when the YAML
value is — and its description is the front matter's description
verbatim when one is present, otherwise the first paragraph of the
content, which is always non-empty. -/
theorem c3_component_fields_provenance (parse_front_matter : String → Option FrontMatter)
    (content : String) (path base_dir : List String) (comp : Component)
    (h : parse_component parse_front_matter content path base_dir = some comp) :
    ∃ fm_str fm, extract_front_matter content = some fm_str
      ∧ parse_front_matter fm_str = some fm
      ∧ comp.category = fm.category
      ∧ (fm.description = some comp.description
         ∨ (fm.description = none
            ∧ extract_first_paragraph content = some comp.description
            ∧ comp.description ≠ "")) := by
  unfold parse_component at h
  cases hfm : extract_front_matter content with
  | none =>
    rw [hfm] at h
    exact absurd h (by simp)
  | some fm_str =>
    rw [hfm, Option.some_bind] at h
    cases hp : parse_front_matter fm_str with
    | none =>
      rw [hp] at h
      exact absurd h (by simp)
    | some fm =>
      rw [hp, Option.some_bind] at h
      refine ⟨fm_str, fm, rfl, hp, ?_⟩
      cases hdesc : fm.description with
      | some d =>
        rw [hdesc] at h
        simp only [Option.orElse, Option.map_some'] at h
        injection h with h2
        rw [← h2]
        exact ⟨rfl, Or.inl rfl⟩
      | none =>
        rw [hdesc] at h
        simp only [Option.orElse] at h
        cases hpar : extract_first_paragraph content with
        | none =>
          rw [hpar] at h
          exact absurd h (by simp)
        | some d =>
          rw [hpar, Option.map_some'] at h
          injection h with h2
          rw [← h2]
          refine ⟨rfl, Or.inr ⟨rfl, rfl, ?_⟩⟩
          obtain ⟨_, _, _, _, _, _, hne, _⟩ :=
            extract_first_paragraph_spec content d hpar
          exact hne

/-- Claim C3 (witness): a component whose description falls back to the
first paragraph, at concrete inputs. -/
theorem c3_witness :
    ∃ fm_str fm,
      extract_front_matter "---\ncategory: Cat\n---\n\n# T\n\nhello\n" = some fm_str
      ∧ (fun (_ : String) => some { description := none, category := "Cat" : FrontMatter }) fm_str
          = some fm
      ∧ ({ path := ["README.md"], description := "hello", category := "Cat" } : Component).category
          = fm.category
      ∧ (fm.description
          = some ({ path := ["README.md"], description := "hello", category := "Cat" } : Component).description
         ∨ (fm.description = none
            ∧ extract_first_paragraph "---\ncategory: Cat\n---\n\n# T\n\nhello\n"
                = some ({ path := ["README.md"], description := "hello", category := "Cat" } : Component).description
            ∧ ({ path := ["README.md"], description := "hello", category := "Cat" } : Component).description ≠ "")) :=
  c3_component_fields_provenance
    (fun _ => some { description := none, category := "Cat" })
    "---\ncategory: Cat\n---\n\n# T\n\nhello\n" ["a", "README.md"] ["a"]
    { path := ["README.md"], description := "hello", category := "Cat" }
    (by decide)
